import Mathlib

/-!
Verification of the two conversion scripts of intel/svr-info:
`check_events.py` (the event-consistency checker) and
`perfmon2perfspect.py` (the metric translator).

Strings are modelled as `List Char`; Python's slicing and `find` (which use
`-1` as "not found" and admit negative slice indices) are modelled over `Int`
with the exact clamping rules of CPython.  Machine-level behaviour plays no
role: every operation is pure string and list manipulation.
-/

/-! ## Python string primitives -/

/-- Python's `str.find` for a single-character needle: the index of the first
occurrence as an `Int`, and `-1` when the character does not occur. -/
def pyFindChar (s : List Char) (c : Char) : Int :=
  match s with
  | [] => -1
  | a :: rest =>
    if a = c then 0
    else
      let r := pyFindChar rest c
      if r < 0 then -1 else r + 1

/-- Python's clamping of one slice endpoint into `[0, n]` for a string of
length `n`: a negative index counts from the end (and clamps at `0`), a
positive index clamps at `n`. -/
def pyIdx (n : Nat) (i : Int) : Nat :=
  if i < 0 then ((n : Int) + i).toNat else min i.toNat n

/-- Python's slice `s[a:b]`. -/
def pySlice (s : List Char) (a b : Int) : List Char :=
  (s.take (pyIdx s.length b)).drop (pyIdx s.length a)

/-- Python's slice `s[a:]`. -/
def pyDrop (s : List Char) (a : Int) : List Char :=
  s.drop (pyIdx s.length a)

/-- First index at which `pat` occurs as a contiguous sublist, if any. -/
def findSubAux (pat : List Char) : List Char → Option Nat
  | [] => if pat.isEmpty then some 0 else none
  | c :: rest =>
    if pat.isPrefixOf (c :: rest) then some 0
    else (findSubAux pat rest).map (· + 1)

/-- Python's `str.find` for a multi-character needle. -/
def pyFindSub (s pat : List Char) : Int :=
  match findSubAux pat s with
  | some i => (i : Int)
  | none => -1

/-- The single-quote character, written by code point to keep source plain. -/
def quoteChar : Char := Char.ofNat 39

/-! ## check_events.py -/

/-- A metric record of the checker's input document (`name`/`expression`). -/
structure CMetric where
  name : List Char
  expression : List Char
deriving DecidableEq

/-- The reserved constant marker `const_`. -/
def constMarker : List Char := "const_".toList

/-- Whether an event name begins with the reserved marker `const_`
(source: `event.startswith("const_")`). -/
def isConstPrefixed (e : List Char) : Bool :=
  constMarker.isPrefixOf e

/-- The colon-truncation step both scripts share
(source: `if x.find(":") > 0: x = x[0:x.find(":")]`). -/
def truncColon (x : List Char) : List Char :=
  if pyFindChar x ':' > 0 then pySlice x 0 (pyFindChar x ':') else x

/-- `get_event` of check_events.py: the event name declared by one line of the
events file; `none` models Python's `None` for blank or comment lines. -/
def get_event (line : List Char) : Option (List Char) :=
  if line = [] ∨ ['#'].isPrefixOf line then none
  else if pyFindSub line ("name=".toList) ≥ 0 then
    let x := pyDrop line (pyFindSub line ("name=".toList) + 5)
    let x := pyDrop x (pyFindChar x quoteChar + 1)
    let x := pySlice x 0 (pyFindChar x quoteChar)
    some (truncColon x)
  else
    some (pySlice line 0 (-2))

/-- The checker's used-event accumulator: `used_events[event] += 1` keeps the
dict's keys in first-insertion order, which is all the outputs consume. -/
def addUsed (used : List (List Char)) (e : List Char) : List (List Char) :=
  if used.contains e then used else used ++ [e]

/-- The checker's bracket-scanning `while` loop over one formula, with explicit
fuel because the source loop does not terminate on every input (an unmatched
`[` with no later `]` leaves the formula unchanged).  Returns the per-metric
event list (`m_events`) and the updated used-event accumulator, or `none` when
the fuel runs out. -/
def scanMetricFormula : Nat → List Char → List (List Char) →
    Option (List (List Char) × List (List Char))
  | 0, _, _ => none
  | fuel + 1, formula, used =>
    if pyFindChar formula '[' ≥ 0 then
      let eb := pyFindChar formula ']'
      let event := truncColon (pySlice formula (pyFindChar formula '[' + 1) eb)
      let used' := if isConstPrefixed event then used else addUsed used event
      match scanMetricFormula fuel (pyDrop formula (eb + 1)) used' with
      | none => none
      | some (mes, u) => some (event :: mes, u)
    else some ([], used)

/-- The checker's outer loop over all metrics, threading the used-event
accumulator (the per-metric `m_events` lists feed `metric_list`, which the
outputs never read). -/
def processMetrics (fuel : Nat) : List CMetric → List (List Char) →
    Option (List (List Char))
  | [], used => some used
  | m :: rest, used =>
    match scanMetricFormula fuel m.expression used with
    | none => none
    | some (_, used') => processMetrics fuel rest used'

/-- The checker's event-file pass: deduplicated declared event names in
first-seen order (source: `if event is not None and event != "" and
event_list.count(event) == 0: event_list.append(event)`). -/
def buildEventList (lines : List (List Char)) : List (List Char) :=
  lines.foldl
    (fun acc line =>
      match get_event line with
      | some e => if e ≠ [] ∧ acc.count e = 0 then acc ++ [e] else acc
      | none => acc)
    []

/-- The whole checker: used events against declared events, returning
`(missing_events, unused_events)`; `none` when the formula scan's fuel runs
out (the source loop would still be running). -/
def checkDocs (fuel : Nat) (metrics : List CMetric) (lines : List (List Char)) :
    Option (List (List Char) × List (List Char)) :=
  match processMetrics fuel metrics [] with
  | none => none
  | some used =>
    let evl := buildEventList lines
    some (used.filter (fun x => !evl.contains x),
          evl.filter (fun x => !used.contains x))

/-! ## perfmon2perfspect.py -/

/-- One `{Alias, Name}` entry of a perfmon metric's `Events` or `Constants`. -/
structure AliasEntry where
  Alias : List Char
  Name : List Char
deriving DecidableEq

/-- A perfmon metric record (the fields the translator reads). -/
structure PerfmonMetric where
  LegacyName : List Char
  Events : List AliasEntry
  Constants : List AliasEntry
  Formula : List Char
deriving DecidableEq

/-- A translated (perfspect-style) metric. -/
structure TranslatedMetric where
  name : List Char
  expression : List Char
deriving DecidableEq

/-- The translator's top-level input document: `Metrics` is `none` when the
field is absent or `null` (source: `mf.get("Metrics") is None`). -/
structure PerfmonDoc where
  Metrics : Option (List PerfmonMetric)
deriving DecidableEq

/-- The fixed, ordered literal-replacement table `varMap` of the source, in
its exact insertion order (Python dicts iterate in insertion order). -/
def varMap : List (List Char × List Char) :=
  [("[INST_RETIRED.ANY]".toList, "[instructions]".toList),
   ("[CPU_CLK_UNHALTED.THREAD]".toList, "[cpu-cycles]".toList),
   ("[CPU_CLK_UNHALTED.REF]".toList, "[ref-cycles]".toList),
   ("[CPU_CLK_UNHALTED.REF_TSC]".toList, "[ref-cycles]".toList),
   ("DURATIONTIMEINSECONDS".toList, "1".toList),
   ("[DURATIONTIMEINMILLISECONDS]".toList, "1000".toList),
   ("[TOPDOWN.SLOTS:perf_metrics]".toList, "[TOPDOWN.SLOTS]".toList),
   ("[OFFCORE_REQUESTS_OUTSTANDING.ALL_DATA_RD:c4]".toList,
    "[OFFCORE_REQUESTS_OUTSTANDING.DATA_RD:c4]".toList)]

/-- Python's `str.replace(old, new)` for a nonempty `old`: every
non-overlapping occurrence, scanned left to right, with the replacement text
itself never rescanned.  (The source only ever calls it with the nonempty
keys of `varMap`; for an empty `old` this model copies the string.) -/
def pyReplace (old new : List Char) : List Char → List Char
  | [] => []
  | c :: rest =>
    if h : old ≠ [] ∧ old.isPrefixOf (c :: rest) then
      new ++ pyReplace old new ((c :: rest).drop old.length)
    else c :: pyReplace old new rest
termination_by l => l.length
decreasing_by
  · simp only [List.length_drop, List.length_cons]
    have : old.length ≠ 0 := fun h0 => h.1 (List.length_eq_zero.mp h0)
    omega
  · simp

/-- The translator's replacement pass: `for v in varMap: newFormula =
newFormula.replace(v, varMap[v])` — each replacement scans the current,
possibly already-modified string. -/
def applyReplacements (tbl : List (List Char × List Char)) (s : List Char) :
    List Char :=
  tbl.foldl (fun acc p => pyReplace p.1 p.2 acc) s

/-- A formula character the source treats as part of an identifier token
(source: `formula[i].isalpha() or formula[i] == "_"`; formulas are ASCII). -/
def isIdentChar (c : Char) : Bool :=
  c.isAlpha || c = '_'

/-- The per-metric alias table: each `Events[i].Alias` and then each
`Constants[i].Alias` is bound to its `Name`; a later binding shadows an
earlier one, exactly as repeated Python dict assignment does. -/
def buildVars (m : PerfmonMetric) : List (List Char × List Char) :=
  (m.Events ++ m.Constants).foldl (fun vs e => (e.Alias, e.Name) :: vs) []

/-- Dict lookup in an alias table built by `buildVars`: the most recent
binding of the alias, `none` when the alias is unbound
(source: `vars.get(x)`). -/
def lookupVar (vs : List (List Char × List Char)) (x : List Char) :
    Option (List Char) :=
  (vs.find? (fun p => p.1 == x)).map (fun p => p.2)

/-- The translator's formula rewrite loop: at an identifier character, take
the maximal run of identifier characters, emit `[<Name>]` when the run is a
bound alias and the run itself otherwise; any other character is copied
through one at a time. -/
def rewriteFormula (vs : List (List Char × List Char)) : List Char → List Char
  | [] => []
  | c :: rest =>
    if isIdentChar c then
      (match lookupVar vs (c :: rest.takeWhile isIdentChar) with
       | some nm => '[' :: (nm ++ [']'])
       | none => c :: rest.takeWhile isIdentChar) ++
        rewriteFormula vs (rest.dropWhile isIdentChar)
    else c :: rewriteFormula vs rest
termination_by l => l.length
decreasing_by
  · simp only [List.length_cons]
    have hsub : (rest.dropWhile isIdentChar).Sublist rest :=
      List.dropWhile_sublist isIdentChar
    have := hsub.length_le
    omega
  · simp

/-- The body of the translator's per-metric loop, with the alias table it
consults made explicit. -/
def translateMetricOn (vs : List (List Char × List Char)) (m : PerfmonMetric) :
    TranslatedMetric :=
  ⟨m.LegacyName, applyReplacements varMap (rewriteFormula vs m.Formula)⟩

/-- One metric's translation as the source performs it: the alias table is
the one built from this metric's own `Events` and `Constants`. -/
def translateMetric (m : PerfmonMetric) : TranslatedMetric :=
  translateMetricOn (buildVars m) m

/-- The translator's loop over `mf["Metrics"]`, threading the single mutable
`vars` dict: `vars.clear()` at the top of each iteration discards whatever
the incoming table held before repopulating it from the current metric. -/
def translateMetricsLoop (tbl : List (List Char × List Char)) :
    List PerfmonMetric → List TranslatedMetric
  | [] => []
  | m :: rest =>
    translateMetricOn (buildVars m) m :: translateMetricsLoop (buildVars m) rest

/-- The diagnostic the translator prints when the input has no `Metrics`. -/
def noMetricsDiag : List Char := "ERROR: No metrics were found".toList

/-- `translate_perfmon_metrics_to_perfspect` of the source as a document
transformation: the missing-`Metrics` early return becomes the `error`
variant (the printed diagnostic), and the `ok` variant carries the array the
source serializes to the output file. -/
def translate_perfmon_metrics_to_perfspect (d : PerfmonDoc) :
    Except (List Char) (List TranslatedMetric) :=
  match d.Metrics with
  | none => Except.error noMetricsDiag
  | some ms => Except.ok (translateMetricsLoop [] ms)

/-- The file-system effect of one translator run: on the `error` path the
source returns before opening the output file, so whatever the output path
held stays as it was; on the `ok` path the result overwrites it. -/
def runTranslate (d : PerfmonDoc) (existing : Option (List TranslatedMetric)) :
    Option (List TranslatedMetric) :=
  match translate_perfmon_metrics_to_perfspect d with
  | Except.error _ => existing
  | Except.ok r => some r

/-- A perfspect-style metric record as the reconcile step sees it: `origin`
is `none` when the record carries no `origin` field. -/
structure PSMetric where
  name : List Char
  expression : List Char
  origin : Option (List Char)
deriving DecidableEq

/-- `find_metric` of the source: first entry of `mList` whose `name` equals
`mName`, by a linear scan. -/
def find_metric : List PSMetric → List Char → Option PSMetric
  | [], _ => none
  | m :: rest, mName => if m.name = mName then some m else find_metric rest mName

/-- The annotation the reconcile step adds to an unmatched used metric
(source: `m["origin"] = "perfspect"`): `origin` is set, nothing else moves. -/
def setOrigin (m : PSMetric) : PSMetric :=
  ⟨m.name, m.expression, some ("perfspect".toList)⟩

/-- `generate_final_metrics_list` of the source: one output entry per used
metric, the canonical entry when `find_metric` finds one, the used entry with
`origin = "perfspect"` otherwise. -/
def generate_final_metrics_list (allMetrics usedMetrics : List PSMetric) :
    List PSMetric :=
  usedMetrics.map (fun m =>
    match find_metric allMetrics m.name with
    | some found => found
    | none => setOrigin m)

/-! ## Definitions written from the spec's words (for the refinement claims) -/

/-- A formula token as the spec describes the rewrite: either a maximal run
of alphabetic/underscore characters, or one non-identifier character. -/
inductive FTok where
  | ident : List Char → FTok
  | other : Char → FTok
deriving DecidableEq

/-- The spec's tokenization of a formula: maximal runs of alphabetic
characters and underscores are identifier tokens, everything else is a
one-character token. -/
def identTokens : List Char → List FTok
  | [] => []
  | c :: rest =>
    if isIdentChar c then
      FTok.ident (c :: rest.takeWhile isIdentChar) ::
        identTokens (rest.dropWhile isIdentChar)
    else FTok.other c :: identTokens rest
termination_by l => l.length
decreasing_by
  · simp only [List.length_cons]
    have hsub : (rest.dropWhile isIdentChar).Sublist rest :=
      List.dropWhile_sublist isIdentChar
    have := hsub.length_le
    omega
  · simp

/-- The spec's per-token rewrite: an identifier token that is a key of the
alias table becomes the resolved `Name` wrapped in square brackets; an
unmatched identifier token and every non-identifier character are copied
through unchanged. -/
def renderTok (vs : List (List Char × List Char)) : FTok → List Char
  | FTok.ident run =>
    match lookupVar vs run with
    | some nm => '[' :: (nm ++ [']'])
    | none => run
  | FTok.other c => [c]

/-- The formula rewrite exactly as the spec words it: tokenize, rewrite each
token, concatenate. -/
def specRewrite (vs : List (List Char × List Char)) (f : List Char) :
    List Char :=
  ((identTokens f).map (renderTok vs)).join

/-- The bracket-pairing rule exactly as the spec words it: the first `[` is
paired with the next `]` encountered *after* it, the substring strictly
between them is the candidate token (colon-truncated as the source does),
and the scan resumes after that `]`.  Where the spec is silent (no further
`[`, or no `]` after the current `[`) the scan stops. -/
def specPairScan : List Char → List (List Char)
  | f =>
    match h1 : f.findIdx? (fun c => c == '[') with
    | none => []
    | some sb =>
      match h2 : (f.drop (sb + 1)).findIdx? (fun c => c == ']') with
      | none => []
      | some j =>
        truncColon ((f.drop (sb + 1)).take j) ::
          specPairScan (f.drop (sb + 1 + j + 1))
termination_by f => f.length
decreasing_by
  simp only [List.length_drop]
  have hsb : sb < f.length := by
    have := List.findIdx?_eq_some_iff_findIdx_eq.mp h1
    exact this.1
  show f.length - (sb + 1 + j + 1) < f.length
  omega

/-- The checker's pairing rule as the counterexample forces it to be amended:
the first `[` of the not-yet-consumed remainder is paired with the first `]`
*anywhere* in that remainder — possibly before the `[`, in which case the
Python slice between them is empty — and the scan resumes after that `]`;
when the remainder holds a `[` but no `]` at all, the candidate is the slice
up to the last character and the remainder is consumed no further (the source
loop repeats forever; the fuel runs out). -/
def amendedScan : Nat → List Char → Option (List (List Char))
  | 0, _ => none
  | fuel + 1, f =>
    if f.contains '[' then
      let sb := f.findIdx (fun c => c == '[')
      if f.contains ']' then
        (amendedScan fuel ((f.dropWhile (fun c => !(c == ']'))).tail)).map
          (fun evs =>
            truncColon ((f.takeWhile (fun c => !(c == ']'))).drop (sb + 1)) :: evs)
      else
        (amendedScan fuel f).map
          (fun evs => truncColon ((f.take (f.length - 1)).drop (sb + 1)) :: evs)
    else some []

/-- Non-termination of the checker, stated over the fuelled model: no amount
of fuel makes `checkDocs` return. -/
def checkStuck (metrics : List CMetric) (lines : List (List Char)) : Prop :=
  ∀ fuel, checkDocs fuel metrics lines = none

/-- Every `[` of the string is followed, strictly later, by some `]`: the
condition under which the checker's formula scan terminates. -/
def bracketOk : List Char → Bool
  | [] => true
  | c :: rest => (if c = '[' then rest.contains ']' else true) && bracketOk rest

/-- Disjointness of the checker's two output lists, for every input and any
sufficient fuel — the negation of the claim that they can intersect. -/
def checkOutputsDisjoint : Prop :=
  ∀ (fuel : Nat) (metrics : List CMetric) (lines : List (List Char))
    (missing unused : List (List Char)),
    checkDocs fuel metrics lines = some (missing, unused) →
    ∀ e, e ∈ missing → e ∈ unused → False

/-! ## Helper lemmas -/

theorem find_metric_eq_find? (l : List PSMetric) (n : List Char) :
    find_metric l n = l.find? (fun a => a.name == n) := by
  induction l with
  | nil => rfl
  | cons m rest ih =>
    simp only [find_metric, List.find?_cons]
    by_cases h : m.name = n
    · simp [h]
    · have hb : (m.name == n) = false := beq_eq_false_iff_ne.mpr h
      simp [h, hb, ih]

theorem translateMetricsLoop_getElem? (ms : List PerfmonMetric) :
    ∀ (tbl : List (List Char × List Char)) (i : Nat),
      (translateMetricsLoop tbl ms)[i]? = (ms[i]?).map translateMetric := by
  induction ms with
  | nil => intro tbl i; simp [translateMetricsLoop]
  | cons m rest ih =>
    intro tbl i
    cases i with
    | zero => simp [translateMetricsLoop, translateMetric]
    | succ k => simpa [translateMetricsLoop] using ih (buildVars m) k

theorem pyFindChar_nonneg_iff (f : List Char) (c : Char) :
    0 ≤ pyFindChar f c ↔ c ∈ f := by
  induction f with
  | nil => simp [pyFindChar]
  | cons a rest ih =>
    simp only [pyFindChar, List.mem_cons]
    by_cases h : a = c
    · simp [h]
    · have hca : ¬c = a := fun hh => h hh.symm
      by_cases hr : pyFindChar rest c < 0
      · simp only [if_neg h, if_pos hr]
        constructor
        · intro habs; omega
        · rintro (h1 | h2)
          · exact absurd h1 hca
          · exact absurd (ih.mpr h2) (by omega)
      · simp only [if_neg h, if_neg hr]
        constructor
        · intro _; right; exact ih.mp (by omega)
        · intro _; omega

theorem bracketOk_tail {c : Char} {rest : List Char}
    (h : bracketOk (c :: rest) = true) : bracketOk rest = true := by
  simp only [bracketOk, Bool.and_eq_true] at h
  exact h.2

theorem bracketOk_drop (n : Nat) : ∀ (f : List Char),
    bracketOk f = true → bracketOk (f.drop n) = true := by
  induction n with
  | zero => intro f h; simpa using h
  | succ k ih =>
    intro f h
    cases f with
    | nil => simpa using h
    | cons c rest => exact ih rest (bracketOk_tail h)

theorem bracketOk_close : ∀ (f : List Char),
    bracketOk f = true → '[' ∈ f → ']' ∈ f := by
  intro f
  induction f with
  | nil => simp
  | cons c rest ih =>
    intro hok hmem
    simp only [bracketOk, Bool.and_eq_true] at hok
    rcases List.mem_cons.mp hmem with h | h
    · have hc : c = '[' := h.symm
      rw [hc] at hok
      simp only [if_pos rfl] at hok
      have : ']' ∈ rest := List.mem_of_elem_eq_true hok.1
      exact List.mem_cons_of_mem _ this
    · exact List.mem_cons_of_mem _ (ih hok.2 h)

theorem scanMetricFormula_stuck : ∀ (fuel : Nat) (used : List (List Char)),
    scanMetricFormula fuel ("[A".toList) used = none := by
  intro fuel
  induction fuel with
  | zero => intro used; rfl
  | succ n ih =>
    intro used
    have step : scanMetricFormula (n + 1) ("[A".toList) used
        = (match scanMetricFormula n ("[A".toList) (addUsed used []) with
           | none => none
           | some (mes, u) => some (([] : List Char) :: mes, u)) := rfl
    rw [step, ih (addUsed used [])]

theorem scanMetricFormula_terminates : ∀ (fuel : Nat) (f : List Char)
    (used : List (List Char)), bracketOk f = true → f.length < fuel →
    (scanMetricFormula fuel f used).isSome = true := by
  intro fuel
  induction fuel with
  | zero => intro f used _ hlen; omega
  | succ n ih =>
    intro f used hok hlen
    by_cases hsb : pyFindChar f '[' ≥ 0
    · have hmem : '[' ∈ f := (pyFindChar_nonneg_iff f '[').mp hsb
      have hclose : ']' ∈ f := bracketOk_close f hok hmem
      have heb : 0 ≤ pyFindChar f ']' := (pyFindChar_nonneg_iff f ']').mpr hclose
      have hfpos : 0 < f.length := List.length_pos.mpr (List.ne_nil_of_mem hmem)
      have hcut : 1 ≤ pyIdx f.length (pyFindChar f ']' + 1) := by
        simp only [pyIdx]
        rw [if_neg (by omega)]
        omega
      have hdroplen : (pyDrop f (pyFindChar f ']' + 1)).length < n := by
        simp only [pyDrop, List.length_drop]
        omega
      have hdropok : bracketOk (pyDrop f (pyFindChar f ']' + 1)) = true :=
        bracketOk_drop _ f hok
      simp only [scanMetricFormula, if_pos hsb]
      have hrec := ih (pyDrop f (pyFindChar f ']' + 1))
        (if isConstPrefixed
            (truncColon (pySlice f (pyFindChar f '[' + 1) (pyFindChar f ']')))
          then used
          else addUsed used
            (truncColon (pySlice f (pyFindChar f '[' + 1) (pyFindChar f ']'))))
        hdropok hdroplen
      cases hscan : scanMetricFormula n (pyDrop f (pyFindChar f ']' + 1))
          (if isConstPrefixed
              (truncColon (pySlice f (pyFindChar f '[' + 1) (pyFindChar f ']')))
            then used
            else addUsed used
              (truncColon (pySlice f (pyFindChar f '[' + 1) (pyFindChar f ']')))) with
      | none => rw [hscan] at hrec; simp at hrec
      | some p => cases p; rfl
    · simp only [scanMetricFormula, if_neg hsb]
      rfl

/-- The fuel with which `checkDocs` is run in the termination theorem: more
than the longest expression's length. -/
def neededFuel (metrics : List CMetric) : Nat :=
  metrics.foldr (fun m a => max m.expression.length a) 0 + 1

theorem neededFuel_gt : ∀ (metrics : List CMetric), ∀ m ∈ metrics,
    m.expression.length < neededFuel metrics := by
  intro metrics
  induction metrics with
  | nil => simp
  | cons a rest ih =>
    intro m hm
    rcases List.mem_cons.mp hm with h | h
    · subst h
      simp only [neededFuel, List.foldr_cons]
      omega
    · have := ih m h
      simp only [neededFuel, List.foldr_cons] at this ⊢
      omega

theorem processMetrics_isSome : ∀ (ms : List CMetric) (fuel : Nat)
    (used : List (List Char)),
    (∀ m ∈ ms, bracketOk m.expression = true) →
    (∀ m ∈ ms, m.expression.length < fuel) →
    (processMetrics fuel ms used).isSome = true := by
  intro ms
  induction ms with
  | nil => intro fuel used _ _; rfl
  | cons m rest ih =>
    intro fuel used hok hlen
    have hm := scanMetricFormula_terminates fuel m.expression used
      (hok m (List.mem_cons_self m rest)) (hlen m (List.mem_cons_self m rest))
    obtain ⟨p, hp⟩ := Option.isSome_iff_exists.mp hm
    simp only [processMetrics, hp]
    cases p with
    | mk mes u =>
      exact ih fuel u (fun a ha => hok a (List.mem_cons_of_mem m ha))
        (fun a ha => hlen a (List.mem_cons_of_mem m ha))

theorem pyFindChar_ge_neg_one (f : List Char) (c : Char) :
    -1 ≤ pyFindChar f c := by
  induction f with
  | nil => simp [pyFindChar]
  | cons a rest ih =>
    simp only [pyFindChar]
    by_cases h : a = c
    · simp [h]
    · by_cases hr : pyFindChar rest c < 0
      · simp [h, hr]
      · simp only [if_neg h, if_neg hr]
        omega

theorem pyFindChar_take (c : Char) : ∀ (f : List Char) (i : Nat),
    pyFindChar f c = (i : Int) → c ∉ f.take i := by
  intro f
  induction f with
  | nil =>
    intro i _
    simp
  | cons a rest ih =>
    intro i hfind
    simp only [pyFindChar] at hfind
    by_cases h : a = c
    · rw [if_pos h] at hfind
      have : i = 0 := by omega
      subst this
      simp
    · rw [if_neg h] at hfind
      by_cases hr : pyFindChar rest c < 0
      · rw [if_pos hr] at hfind
        omega
      · rw [if_neg hr] at hfind
        have hge : 0 ≤ pyFindChar rest c := by omega
        have hi : 1 ≤ i := by omega
        have hrest : pyFindChar rest c = ((i - 1 : Nat) : Int) := by
          push_cast
          omega
        intro hmem
        cases i with
        | zero => omega
        | succ k =>
          rw [List.take_succ_cons] at hmem
          rcases List.mem_cons.mp hmem with h1 | h1
          · exact h h1.symm
          · have : c ∉ rest.take k := by
              have := ih k (by push_cast at hrest ⊢; omega)
              exact this
            exact this h1

theorem pyFindChar_zero (f : List Char) (c : Char)
    (h : pyFindChar f c = 0) : ∃ rest, f = c :: rest := by
  cases f with
  | nil => simp [pyFindChar] at h
  | cons a rest =>
    simp only [pyFindChar] at h
    by_cases ha : a = c
    · subst ha
      exact ⟨rest, rfl⟩
    · rw [if_neg ha] at h
      by_cases hr : pyFindChar rest c < 0
      · rw [if_pos hr] at h
        cases h
      · rw [if_neg hr] at h
        omega

theorem pyFindChar_eq_neg_one (f : List Char) (c : Char) (h : c ∉ f) :
    pyFindChar f c = -1 := by
  have h1 := pyFindChar_ge_neg_one f c
  have h2 : ¬0 ≤ pyFindChar f c := fun hge =>
    h ((pyFindChar_nonneg_iff f c).mp hge)
  omega

theorem pyFindChar_eq_findIdx (c : Char) : ∀ (f : List Char), c ∈ f →
    pyFindChar f c = (f.findIdx (fun a => a == c) : Int) := by
  intro f
  induction f with
  | nil => simp
  | cons a rest ih =>
    intro hmem
    simp only [pyFindChar, List.findIdx_cons]
    by_cases h : a = c
    · simp [h]
    · have hbc : (a == c) = false := beq_eq_false_iff_ne.mpr h
      have hcr : c ∈ rest := by
        rcases List.mem_cons.mp hmem with h1 | h1
        · exact absurd h1.symm h
        · exact h1
      have hge : 0 ≤ pyFindChar rest c := (pyFindChar_nonneg_iff rest c).mpr hcr
      rw [if_neg h, if_neg (by omega : ¬pyFindChar rest c < 0), ih hcr, hbc]
      simp only [cond_false]
      push_cast
      ring

theorem take_findIdx_eq_takeWhile (c : Char) : ∀ (f : List Char),
    f.take (f.findIdx (fun a => a == c)) = f.takeWhile (fun a => !(a == c)) := by
  intro f
  induction f with
  | nil => rfl
  | cons a rest ih =>
    by_cases h : a = c
    · have hbc : (a == c) = true := beq_iff_eq.mpr h
      simp [List.findIdx_cons, List.takeWhile_cons, hbc]
    · have hbc : (a == c) = false := beq_eq_false_iff_ne.mpr h
      simp [List.findIdx_cons, List.takeWhile_cons, hbc, ih]

theorem drop_findIdx_succ_eq (c : Char) : ∀ (f : List Char),
    f.drop (f.findIdx (fun a => a == c) + 1)
      = (f.dropWhile (fun a => !(a == c))).tail := by
  intro f
  induction f with
  | nil => rfl
  | cons a rest ih =>
    by_cases h : a = c
    · have hbc : (a == c) = true := beq_iff_eq.mpr h
      simp [List.findIdx_cons, List.dropWhile_cons, hbc]
    · have hbc : (a == c) = false := beq_eq_false_iff_ne.mpr h
      simp only [List.findIdx_cons, hbc, cond_false, List.dropWhile_cons,
        Bool.not_false, if_pos]
      rw [← ih]
      simp

theorem take_min_self (f : List Char) (k : Nat) :
    f.take (min k f.length) = f.take k := by
  rcases le_total k f.length with h | h
  · rw [min_eq_left h]
  · rw [min_eq_right h, List.take_length, List.take_all_of_le h]

theorem slice_closed (f : List Char) (hmem : '[' ∈ f) (hclose : ']' ∈ f) :
    pySlice f (pyFindChar f '[' + 1) (pyFindChar f ']')
      = (f.takeWhile (fun a => !(a == ']'))).drop
          (f.findIdx (fun a => a == '[') + 1) := by
  have hsblt : f.findIdx (fun a => a == '[') < f.length :=
    List.findIdx_lt_length_of_exists ⟨'[', hmem, by simp⟩
  have hclt : f.findIdx (fun a => a == ']') < f.length :=
    List.findIdx_lt_length_of_exists ⟨']', hclose, by simp⟩
  rw [pyFindChar_eq_findIdx '[' f hmem, pyFindChar_eq_findIdx ']' f hclose]
  simp only [pySlice, pyIdx]
  rw [if_neg (by omega), if_neg (by omega)]
  have h1 : ((f.findIdx (fun a => a == ']') : Int)).toNat
      = f.findIdx (fun a => a == ']') := by omega
  have h2 : ((f.findIdx (fun a => a == '[') : Int) + 1).toNat
      = f.findIdx (fun a => a == '[') + 1 := by omega
  rw [h1, h2, min_eq_left (by omega), min_eq_left (by omega),
    take_findIdx_eq_takeWhile]

theorem rest_closed (f : List Char) (hclose : ']' ∈ f) :
    pyDrop f (pyFindChar f ']' + 1)
      = (f.dropWhile (fun a => !(a == ']'))).tail := by
  have hclt : f.findIdx (fun a => a == ']') < f.length :=
    List.findIdx_lt_length_of_exists ⟨']', hclose, by simp⟩
  rw [pyFindChar_eq_findIdx ']' f hclose]
  simp only [pyDrop, pyIdx]
  rw [if_neg (by omega)]
  have h2 : ((f.findIdx (fun a => a == ']') : Int) + 1).toNat
      = f.findIdx (fun a => a == ']') + 1 := by omega
  rw [h2, min_eq_left (by omega), drop_findIdx_succ_eq]

theorem slice_unclosed (f : List Char) (hmem : '[' ∈ f) (hnc : ']' ∉ f) :
    pySlice f (pyFindChar f '[' + 1) (pyFindChar f ']')
      = (f.take (f.length - 1)).drop (f.findIdx (fun a => a == '[') + 1) := by
  have hsblt : f.findIdx (fun a => a == '[') < f.length :=
    List.findIdx_lt_length_of_exists ⟨'[', hmem, by simp⟩
  rw [pyFindChar_eq_neg_one f ']' hnc, pyFindChar_eq_findIdx '[' f hmem]
  simp only [pySlice, pyIdx]
  rw [if_pos (by omega : (-1 : Int) < 0), if_neg (by omega)]
  have h1 : ((f.length : Int) + -1).toNat = f.length - 1 := by omega
  have h2 : ((f.findIdx (fun a => a == '[') : Int) + 1).toNat
      = f.findIdx (fun a => a == '[') + 1 := by omega
  rw [h1, h2, min_eq_left (by omega)]

theorem rest_unclosed (f : List Char) (hnc : ']' ∉ f) :
    pyDrop f (pyFindChar f ']' + 1) = f := by
  rw [pyFindChar_eq_neg_one f ']' hnc]
  have h0 : (-1 : Int) + 1 = 0 := by omega
  rw [h0]
  simp only [pyDrop, pyIdx]
  rw [if_neg (by omega)]
  simp

theorem checkDocs_some_shape (fuel : Nat) (ms : List CMetric)
    (lines : List (List Char)) (missing unused : List (List Char))
    (h : checkDocs fuel ms lines = some (missing, unused)) :
    ∃ used, processMetrics fuel ms [] = some used
      ∧ missing = used.filter (fun x => !(buildEventList lines).contains x)
      ∧ unused = (buildEventList lines).filter (fun x => !used.contains x) := by
  unfold checkDocs at h
  cases hproc : processMetrics fuel ms [] with
  | none => rw [hproc] at h; cases h
  | some used =>
    rw [hproc] at h
    refine ⟨used, rfl, ?_, ?_⟩
    · have := (Option.some.injEq _ _).mp h
      exact (congrArg Prod.fst this).symm
    · have := (Option.some.injEq _ _).mp h
      exact (congrArg Prod.snd this).symm

theorem checkDocs_disjoint (fuel : Nat) (ms : List CMetric)
    (lines : List (List Char)) (missing unused : List (List Char))
    (h : checkDocs fuel ms lines = some (missing, unused)) :
    ∀ e, e ∈ missing → e ∈ unused → False := by
  intro e hm hu
  obtain ⟨used, _, hmiss, hunused⟩ := checkDocs_some_shape fuel ms lines missing unused h
  rw [hmiss] at hm
  rw [hunused] at hu
  have h1 := (List.mem_filter.mp hm).2
  have h2 := (List.mem_filter.mp hu).1
  rw [Bool.not_eq_true'] at h1
  have h3 : (buildEventList lines).elem e = true := List.elem_eq_true_of_mem h2
  exact absurd h3 (ne_true_of_eq_false h1)

/-- All entries of the used-event accumulator are free of the `const_`
marker. -/
def usedOk (used : List (List Char)) : Prop :=
  ∀ e ∈ used, isConstPrefixed e = false

theorem addUsed_usedOk {used : List (List Char)} {e : List Char}
    (h : usedOk used) (he : isConstPrefixed e = false) :
    usedOk (addUsed used e) := by
  intro x hx
  unfold addUsed at hx
  by_cases hc : used.contains e
  · rw [if_pos hc] at hx
    exact h x hx
  · rw [if_neg hc] at hx
    rcases List.mem_append.mp hx with h1 | h1
    · exact h x h1
    · rw [List.mem_singleton.mp h1]
      exact he

theorem scanMetricFormula_usedOk : ∀ (fuel : Nat) (f : List Char)
    (used : List (List Char)), usedOk used →
    ∀ r, scanMetricFormula fuel f used = some r → usedOk r.2 := by
  intro fuel
  induction fuel with
  | zero => intro f used _ r hr; cases hr
  | succ n ih =>
    intro f used hok r hr
    by_cases hsb : pyFindChar f '[' ≥ 0
    · simp only [scanMetricFormula, if_pos hsb] at hr
      set ev := truncColon (pySlice f (pyFindChar f '[' + 1) (pyFindChar f ']'))
        with hev
      have hok' : usedOk (if isConstPrefixed ev then used else addUsed used ev) := by
        by_cases hcp : isConstPrefixed ev
        · rw [if_pos hcp]; exact hok
        · rw [if_neg hcp]
          exact addUsed_usedOk hok (Bool.not_eq_true _ ▸ eq_false_of_ne_true hcp)
      cases hscan : scanMetricFormula n (pyDrop f (pyFindChar f ']' + 1))
          (if isConstPrefixed ev then used else addUsed used ev) with
      | none => rw [hscan] at hr; cases hr
      | some p =>
        rw [hscan] at hr
        cases p with
        | mk mes u =>
          have := ih (pyDrop f (pyFindChar f ']' + 1))
            (if isConstPrefixed ev then used else addUsed used ev) hok'
            (mes, u) hscan
          cases hr
          exact this
    · simp only [scanMetricFormula, if_neg hsb] at hr
      cases hr
      exact hok

theorem processMetrics_usedOk : ∀ (ms : List CMetric) (fuel : Nat)
    (used : List (List Char)), usedOk used →
    ∀ u, processMetrics fuel ms used = some u → usedOk u := by
  intro ms
  induction ms with
  | nil => intro fuel used hok u hu; cases hu; exact hok
  | cons m rest ih =>
    intro fuel used hok u hu
    simp only [processMetrics] at hu
    cases hscan : scanMetricFormula fuel m.expression used with
    | none => rw [hscan] at hu; cases hu
    | some p =>
      rw [hscan] at hu
      cases p with
      | mk mes used' =>
        exact ih fuel used'
          (scanMetricFormula_usedOk fuel m.expression used hok (mes, used') hscan)
          u hu

theorem rewriteFormula_eq_specRewrite (vs : List (List Char × List Char))
    (f : List Char) : rewriteFormula vs f = specRewrite vs f := by
  induction f using identTokens.induct with
  | case1 => simp [rewriteFormula, specRewrite, identTokens]
  | case2 c rest h ih =>
    simp only [rewriteFormula, specRewrite, identTokens, h, if_true,
      List.map_cons, List.join] at ih ⊢
    rw [ih]
    cases hlv : lookupVar vs (c :: rest.takeWhile isIdentChar) with
    | none => simp [renderTok, hlv]
    | some nm => simp [renderTok, hlv]
  | case3 c rest h ih =>
    simp only [rewriteFormula, specRewrite, identTokens, h, if_false,
      List.map_cons, List.join] at ih ⊢
    rw [ih]
    rfl

/-! ## Claim theorems -/

/-- Claim C1: every metric's translated expression equals the spec-described
pipeline — tokenize the formula into maximal alphabetic/underscore runs,
replace each run that is a key of this metric's alias table by its resolved
name in square brackets, copy everything else through, then apply the eight
literal replacements of the fixed table sequentially in the listed order,
each scanning the current working string (the second conjunct spells that
order out). -/
theorem C1_translated_expression_matches_spec_rewrite (m : PerfmonMetric) :
    (translateMetric m).expression
      = applyReplacements varMap (specRewrite (buildVars m) m.Formula)
    ∧ ∀ s : List Char,
        applyReplacements varMap s =
          pyReplace ("[OFFCORE_REQUESTS_OUTSTANDING.ALL_DATA_RD:c4]".toList)
            ("[OFFCORE_REQUESTS_OUTSTANDING.DATA_RD:c4]".toList)
            (pyReplace ("[TOPDOWN.SLOTS:perf_metrics]".toList)
              ("[TOPDOWN.SLOTS]".toList)
              (pyReplace ("[DURATIONTIMEINMILLISECONDS]".toList) ("1000".toList)
                (pyReplace ("DURATIONTIMEINSECONDS".toList) ("1".toList)
                  (pyReplace ("[CPU_CLK_UNHALTED.REF_TSC]".toList)
                    ("[ref-cycles]".toList)
                    (pyReplace ("[CPU_CLK_UNHALTED.REF]".toList)
                      ("[ref-cycles]".toList)
                      (pyReplace ("[CPU_CLK_UNHALTED.THREAD]".toList)
                        ("[cpu-cycles]".toList)
                        (pyReplace ("[INST_RETIRED.ANY]".toList)
                          ("[instructions]".toList) s))))))) := by
  constructor
  · show applyReplacements varMap (rewriteFormula (buildVars m) m.Formula) = _
    rw [rewriteFormula_eq_specRewrite]
  · intro s
    rfl

/-- Claim C3 is false as stated: the checker's bracket scan is not total.  On
the expression `[A` — a `[` with no later `]` — `formula.find("]")` is `-1`,
so `formula = formula[end_bracket+1:]` leaves the formula unchanged and the
`while` loop never exits; in the fuelled model no fuel makes `checkDocs`
return. -/
theorem C3_check_stuck_on_unclosed_bracket :
    checkStuck [⟨"m1".toList, "[A".toList⟩] [] := by
  intro fuel
  simp only [checkDocs, processMetrics, scanMetricFormula_stuck]

/-- Claim C3 as amended: the bracket scan of each expression terminates — and
`check` returns its pair of lists — for every metrics document in which every
`[` of every expression is followed, strictly later, by some `]`; the
counterexample shows the unrestricted claim fails. -/
theorem C3_check_total_when_brackets_closed (ms : List CMetric)
    (lines : List (List Char)) (h : ∀ m ∈ ms, bracketOk m.expression = true) :
    ∃ fuel r, checkDocs fuel ms lines = some r := by
  refine ⟨neededFuel ms, ?_⟩
  have hp := processMetrics_isSome ms (neededFuel ms) [] h (neededFuel_gt ms)
  obtain ⟨used, hu⟩ := Option.isSome_iff_exists.mp hp
  refine ⟨(used.filter (fun x => !(buildEventList lines).contains x),
    (buildEventList lines).filter (fun x => !used.contains x)), ?_⟩
  simp only [checkDocs, hu]

/-- Witness for the amended C3 at a concrete well-bracketed document. -/
theorem C3_check_total_when_brackets_closed_witness :
    ∃ fuel r,
      checkDocs fuel [⟨"m1".toList, "[A] / [B]".toList⟩] ["A,\n".toList]
        = some r :=
  C3_check_total_when_brackets_closed [⟨"m1".toList, "[A] / [B]".toList⟩]
    ["A,\n".toList] (by decide)

/-- Claim C4 is false as stated: the source pairs the first `[` with the
first `]` found *anywhere* in the remaining formula (`formula.find("]")`
scans from position 0), not with the next `]` after the `[`.  On `]a[b]` the
spec's pairing rule extracts only `b`, while the code first pairs the `[` at
index 2 with the `]` at index 0, extracting an empty candidate, and only
then extracts `b`. -/
theorem C4_pairing_differs_from_spec_rule :
    (scanMetricFormula 10 ("]a[b]".toList) []).map Prod.fst
      = some [([] : List Char), "b".toList]
    ∧ specPairScan ("]a[b]".toList) = ["b".toList]
    ∧ (scanMetricFormula 10 ("]a[b]".toList) []).map Prod.fst
        ≠ some (specPairScan ("]a[b]".toList)) := by
  have e0 : specPairScan ("".toList) = [] := by
    rw [specPairScan.eq_def]
    rfl
  have h1 : (scanMetricFormula 10 ("]a[b]".toList) []).map Prod.fst
      = some [([] : List Char), "b".toList] := by decide
  have h2 : specPairScan ("]a[b]".toList) = ["b".toList] := by
    rw [specPairScan.eq_def]
    show truncColon ((("]a[b]".toList).drop 3).take 1)
        :: specPairScan (("]a[b]".toList).drop 5) = ["b".toList]
    have hd : ("]a[b]".toList).drop 5 = "".toList := by decide
    rw [hd, e0]
    decide
  refine ⟨h1, h2, ?_⟩
  rw [h1, h2]
  decide

/-- Claim C4 as amended: each scanning step pairs the currently first `[`
with the first `]` anywhere in the not-yet-consumed remainder — possibly
*before* the `[`, in which case the candidate is the empty string — resumes
after that `]`, and when the remainder has a `[` but no `]` at all the scan
makes no progress (the source loops; the fuelled model returns `none`).
`amendedScan` states that rule directly and agrees with the source scan on
every input, every fuel, and every accumulator state. -/
theorem C4_scan_pairs_first_close_anywhere : ∀ (fuel : Nat) (f : List Char)
    (used : List (List Char)),
    (scanMetricFormula fuel f used).map Prod.fst = amendedScan fuel f := by
  intro fuel
  induction fuel with
  | zero => intro f used; rfl
  | succ n ih =>
    intro f used
    by_cases hb : f.contains '[' = true
    · have hmem : '[' ∈ f := List.mem_of_elem_eq_true hb
      have hsb : pyFindChar f '[' ≥ 0 := (pyFindChar_nonneg_iff f '[').mpr hmem
      by_cases hcl : f.contains ']' = true
      · have hclose : ']' ∈ f := List.mem_of_elem_eq_true hcl
        simp only [scanMetricFormula, if_pos hsb, amendedScan, hb, hcl, if_true]
        rw [slice_closed f hmem hclose, rest_closed f hclose]
        set EV := truncColon ((f.takeWhile (fun a => !(a == ']'))).drop
          (f.findIdx (fun a => a == '[') + 1)) with hEV
        set R := (f.dropWhile (fun a => !(a == ']'))).tail with hR
        set U := if isConstPrefixed EV = true then used else addUsed used EV
          with hU
        rw [← ih R U]
        cases hscan : scanMetricFormula n R U with
        | none => rfl
        | some p => cases p; rfl
      · have hnc : ']' ∉ f := fun hx => hcl (List.elem_eq_true_of_mem hx)
        simp only [scanMetricFormula, if_pos hsb, amendedScan, hb, hcl,
          if_true, Bool.false_eq_true, if_false]
        rw [slice_unclosed f hmem hnc, rest_unclosed f hnc]
        set EV := truncColon ((f.take (f.length - 1)).drop
          (f.findIdx (fun a => a == '[') + 1)) with hEV
        set U := if isConstPrefixed EV = true then used else addUsed used EV
          with hU
        rw [← ih f U]
        cases hscan : scanMetricFormula n f U with
        | none => rfl
        | some p => cases p; rfl
    · have hnotmem : '[' ∉ f := fun hx => hb (List.elem_eq_true_of_mem hx)
      have hsb : ¬pyFindChar f '[' ≥ 0 := by
        have := pyFindChar_eq_neg_one f '[' hnotmem
        omega
      simp only [scanMetricFormula, if_neg hsb, amendedScan, hb,
        Bool.false_eq_true, if_false]
      rfl

/-- Claim C6 as amended: a `const_`-prefixed name never appears in
`missingEvents` (such tokens are excluded from used-event accounting); but a
`const_`-prefixed name the events document declares always lands in
`unusedEvents`, since the used set it is filtered against can never contain
it — the counterexample shows the original "never in unusedEvents" half
fails. -/
theorem C6_const_never_missing (fuel : Nat) (ms : List CMetric)
    (lines : List (List Char)) (missing unused : List (List Char))
    (h : checkDocs fuel ms lines = some (missing, unused)) :
    (∀ e ∈ missing, isConstPrefixed e = false)
    ∧ (∀ e ∈ buildEventList lines, isConstPrefixed e = true → e ∈ unused) := by
  obtain ⟨used, hproc, hmiss, hunused⟩ :=
    checkDocs_some_shape fuel ms lines missing unused h
  have husedOk : usedOk used :=
    processMetrics_usedOk ms fuel [] (by intro e he; cases he) used hproc
  constructor
  · intro e he
    rw [hmiss] at he
    exact husedOk e (List.mem_filter.mp he).1
  · intro e he hconst
    rw [hunused]
    refine List.mem_filter.mpr ⟨he, ?_⟩
    cases hcont : used.contains e with
    | false => rfl
    | true =>
      have : e ∈ used := List.mem_of_elem_eq_true hcont
      rw [husedOk e this] at hconst
      cases hconst

/-- Witness for the amended C6 at a concrete pair of documents: the metrics
are empty, the events file declares `const_Y`, and `const_Y` duly shows up in
`unusedEvents` while `missingEvents` is empty. -/
theorem C6_const_never_missing_witness :
    (∀ e ∈ ([] : List (List Char)), isConstPrefixed e = false)
    ∧ (∀ e ∈ buildEventList ["const_Y,\n".toList], isConstPrefixed e = true →
        e ∈ (["const_Y".toList] : List (List Char))) :=
  C6_const_never_missing 5 [] ["const_Y,\n".toList] [] ["const_Y".toList]
    (by decide)

/-- Claim C7 is false as stated: the truncation test is `find(":") > 0`, so
an extracted string whose *first* character is a colon is not truncated at
all.  With the formula `[:A]` the bracketed span `:A` contains a colon, yet
the token kept is `:A` itself — not the prefix before the first colon — and
that colon-bearing token reaches the missing/unused comparison. -/
theorem C7_leading_colon_not_truncated :
    checkDocs 5 [⟨"m1".toList, "[:A]".toList⟩] [] = some ([":A".toList], [])
    ∧ (':') ∈ (":A".toList)
    ∧ truncColon (":A".toList) ≠ pySlice (":A".toList) 0 (pyFindChar (":A".toList) ':')
    ∧ (':') ∈ truncColon (":A".toList) := by
  refine ⟨by decide, by decide, by decide, by decide⟩

/-- Claim C7 as amended: colon-truncation fires only when the first colon
sits at a positive index; then the token is the prefix before that colon,
which is colon-free.  When the first colon is the first character (or there
is none) the extracted string passes through unchanged, so a comparison
token contains a colon exactly when the extracted string began with one. -/
theorem C7_colon_truncation_characterization (x : List Char) :
    (0 < pyFindChar x ':' →
      truncColon x = pySlice x 0 (pyFindChar x ':') ∧ (':') ∉ truncColon x)
    ∧ (¬0 < pyFindChar x ':' → truncColon x = x)
    ∧ ((':') ∈ truncColon x ↔ pyFindChar x ':' = 0) := by
  have hB : ¬0 < pyFindChar x ':' → truncColon x = x := by
    intro h
    rw [truncColon, if_neg h]
  have hA : 0 < pyFindChar x ':' →
      truncColon x = pySlice x 0 (pyFindChar x ':') ∧ (':') ∉ truncColon x := by
    intro h
    have htr : truncColon x = pySlice x 0 (pyFindChar x ':') := by
      rw [truncColon, if_pos h]
    refine ⟨htr, ?_⟩
    rw [htr]
    have hnat : pyFindChar x ':' = (((pyFindChar x ':').toNat : Nat) : Int) := by
      omega
    have hnotin : (':') ∉ x.take (pyFindChar x ':').toNat :=
      pyFindChar_take ':' x (pyFindChar x ':').toNat hnat
    simp only [pySlice, pyIdx]
    rw [if_neg (by omega : ¬(pyFindChar x ':') < 0),
      if_neg (by omega : ¬(0 : Int) < 0)]
    simp only [Int.toNat_zero, Nat.zero_min, List.drop_zero, min_self]
    intro hmem
    rw [take_min_self] at hmem
    exact hnotin hmem
  refine ⟨hA, hB, ?_⟩
  constructor
  · intro hmem
    by_cases hpos : 0 < pyFindChar x ':'
    · exact absurd hmem (hA hpos).2
    · rw [hB hpos] at hmem
      have := (pyFindChar_nonneg_iff x ':').mpr hmem
      omega
  · intro h0
    obtain ⟨rest, hx⟩ := pyFindChar_zero x ':' h0
    rw [hB (by omega)]
    rw [hx]
    exact List.mem_cons_self ':' rest

/-- Claim C8 is false: the two output lists can never share an event name.
Both are built from the same used set and the same declared list —
`missingEvents` keeps exactly the used names *not* in the declared list,
`unusedEvents` keeps exactly the declared names *not* in the used set — so a
common member would have to be both in and not in the declared list.  This
theorem proves the negation of the claimed existence. -/
theorem C8_lists_never_intersect : checkOutputsDisjoint :=
  fun fuel ms lines missing unused h e hm hu =>
    checkDocs_disjoint fuel ms lines missing unused h e hm hu

/-- Claim C8 as amended: for every input on which the checker returns,
`missingEvents` and `unusedEvents` are disjoint. -/
theorem C8_disjointness_guaranteed (fuel : Nat) (ms : List CMetric)
    (lines : List (List Char)) (p : List (List Char) × List (List Char))
    (h : checkDocs fuel ms lines = some p) :
    p.1.all (fun e => !p.2.contains e) = true := by
  rw [List.all_eq_true]
  intro e he
  cases hcont : p.2.contains e with
  | false => rfl
  | true =>
    have hmem : e ∈ p.2 := List.mem_of_elem_eq_true hcont
    cases p with
    | mk missing unused =>
      exact absurd hmem
        (fun hm => checkDocs_disjoint fuel ms lines missing unused h e he hm)

/-- Witness for the amended C8 on documents producing one missing and one
unused event. -/
theorem C8_disjointness_guaranteed_witness :
    (["A".toList] : List (List Char)).all
      (fun e => !(["B".toList] : List (List Char)).contains e) = true :=
  C8_disjointness_guaranteed 5 [⟨"m".toList, "[A]".toList⟩]
    ["name='B'\n".toList] (["A".toList], ["B".toList]) (by decide)

/-- Claim C9: when the top-level input document of the translate operation
lacks a `Metrics` field, translate yields the diagnostic (printed, then an
early return) without producing any translated metrics, and the output path
— here the `existing` contents — is left unchanged. -/
theorem C9_missing_metrics_field_aborts (d : PerfmonDoc)
    (existing : Option (List TranslatedMetric)) (h : d.Metrics = none) :
    translate_perfmon_metrics_to_perfspect d = Except.error noMetricsDiag
      ∧ runTranslate d existing = existing := by
  cases d with
  | mk metrics =>
    cases h
    exact ⟨rfl, rfl⟩

/-- Witness for C9 at a concrete document and a concrete pre-existing output
file. -/
theorem C9_missing_metrics_field_aborts_witness :
    translate_perfmon_metrics_to_perfspect ⟨none⟩ = Except.error noMetricsDiag
      ∧ runTranslate ⟨none⟩ (some [⟨"m".toList, "[X]".toList⟩])
          = some [⟨"m".toList, "[X]".toList⟩] :=
  C9_missing_metrics_field_aborts ⟨none⟩ (some [⟨"m".toList, "[X]".toList⟩]) rfl

/-- Claim C10 is false as stated: with the events document consisting of the
two literal lines `A` and `name='B'`, the bare line's event name is the line
minus its final two characters, which is empty, so `A` is never declared and
`missingEvents` comes out `["A"]`, not `[]`. -/
theorem C10_bare_line_drops_event :
    checkDocs 40 [⟨"m1".toList, "[A] + [B:c1] - [const_X]".toList⟩]
        ["A\n".toList, "name='B'\n".toList]
      = some (["A".toList], [])
    ∧ checkDocs 40 [⟨"m1".toList, "[A] + [B:c1] - [const_X]".toList⟩]
        ["A\n".toList, "name='B'\n".toList]
      ≠ some ([], []) := by
  constructor
  · decide
  · decide

/-- Claim C10 as amended: when the bare line carries the two trailing
characters the parser strips (here `A,` plus the newline), the declared set
is `{A, B}` and the checker returns `missingEvents = []`, `unusedEvents = []`
— and `const_X` appears in neither list. -/
theorem C10_expected_output_with_two_char_tail :
    checkDocs 40 [⟨"m1".toList, "[A] + [B:c1] - [const_X]".toList⟩]
        ["A,\n".toList, "name='B'\n".toList]
      = some ([], []) := by
  decide

/-- Claim C6 is false as stated: an events file that declares a
`const_`-prefixed name puts that name into `unusedEvents`, because
`const_`-prefixed tokens are excluded from the used-event accounting and the
declared list is filtered only against used events. -/
theorem C6_const_event_in_unused :
    checkDocs 5 [⟨"m1".toList, "[const_X]".toList⟩] ["const_X,\n".toList]
      = some ([], ["const_X".toList])
    ∧ isConstPrefixed ("const_X".toList) = true := by
  constructor
  · decide
  · decide

/-- Claim C2: reconcile returns exactly one entry per used metric, in order:
the i-th entry is the first `allMetrics` entry whose name equals the i-th
used name when one exists, and otherwise the i-th used entry with `origin`
set to `perfspect` and its other fields unchanged; no name absent from
`usedMetrics` is added. -/
theorem C2_reconcile_pointwise (allM used : List PSMetric) :
    (generate_final_metrics_list allM used).length = used.length
    ∧ (∀ i : Nat,
        (generate_final_metrics_list allM used)[i]?
          = (used[i]?).map (fun u =>
              match allM.find? (fun a => a.name == u.name) with
              | some f => f
              | none => setOrigin u))
    ∧ (∀ r ∈ generate_final_metrics_list allM used, ∃ u ∈ used, r.name = u.name)
    ∧ (∀ u : PSMetric,
        (setOrigin u).name = u.name ∧ (setOrigin u).expression = u.expression
          ∧ (setOrigin u).origin = some ("perfspect".toList)) := by
  refine ⟨?_, ?_, ?_, ?_⟩
  · simp [generate_final_metrics_list]
  · intro i
    simp only [generate_final_metrics_list, List.getElem?_map]
    cases used[i]? with
    | none => rfl
    | some u => simp [find_metric_eq_find?]
  · intro r hr
    simp only [generate_final_metrics_list, List.mem_map] at hr
    obtain ⟨u, hu, hru⟩ := hr
    refine ⟨u, hu, ?_⟩
    subst hru
    cases hfind : find_metric allM u.name with
    | none => simp [hfind, setOrigin]
    | some f =>
      have : (fun a => a.name == u.name) f = true := by
        have := List.find?_some (by rw [← find_metric_eq_find?, hfind])
        exact this
      simp only [beq_iff_eq] at this
      simp [hfind, this]
  · intro u
    exact ⟨rfl, rfl, rfl⟩

/-- Claim C5: the i-th translated metric is a function of the i-th perfmon
record alone — the alias table consulted is exactly `buildVars` of that
record, whatever the shared mutable table held before the iteration — so two
documents that agree on a record translate it identically, whatever their
other metrics hold. -/
theorem C5_translation_depends_only_on_own_record
    (tbl : List (List Char × List Char)) (ms : List PerfmonMetric) (i : Nat) :
    (translateMetricsLoop tbl ms)[i]? = (ms[i]?).map translateMetric
    ∧ ∀ (tbl₂ : List (List Char × List Char)) (ms₂ : List PerfmonMetric)
        (j : Nat), ms[i]? = ms₂[j]? →
        (translateMetricsLoop tbl ms)[i]? = (translateMetricsLoop tbl₂ ms₂)[j]? := by
  refine ⟨translateMetricsLoop_getElem? ms tbl i, ?_⟩
  intro tbl₂ ms₂ j hagree
  rw [translateMetricsLoop_getElem? ms tbl i,
    translateMetricsLoop_getElem? ms₂ tbl₂ j, hagree]
